import Mathlib

/-!
Verification of the speaker-attribution pipeline of `video_transcriber`
(files `transcript_gen_logic.py` and `video_transcriber.py`).

Modelling conventions:
* Python floats are modelled as rationals (`ℚ`); the literals appearing in
  the code (0.25, 0.3) are exact binary/decimal constants.
* Python strings are modelled as `List Char` (`Str` below).
* A Python dict with fixed keys is modelled as a structure; the key `end`
  is rendered as the field `stop` because `end` is reserved in Lean.
* Optional dict keys read with `.get(k, default)` are modelled as `Option`
  fields together with `Option.getD`.
-/

abbrev Str := List Char

/-- A diarization segment `{'start': float, 'end': float, 'speaker': str}`.
The Python key `end` is the field `stop`. -/
structure Segment where
  start : ℚ
  stop : ℚ
  speaker : Str
  deriving DecidableEq, Repr

/-- Embedding of `filter_short_segments(segments, threshold=0.3)` from
`transcript_gen_logic.py`: keeps the segments whose duration is at least
the threshold, in order. -/
def filter_short_segments (segments : List Segment) (threshold : ℚ) : List Segment :=
  segments.filter (fun s => threshold ≤ s.stop - s.start)

/-- The directional distance from the word interval to a segment computed by
the `# 2. Closest match` loop body of `get_speaker_improved`:
`dist = seg.start - word_end` when the word is before the segment,
`dist = word_start - seg.end` when it is after, `0` otherwise. -/
def segDist (word_start word_end : ℚ) (seg : Segment) : ℚ :=
  if word_end < seg.start then seg.start - word_end
  else if word_start > seg.stop then word_start - seg.stop
  else 0

/-- The `# 1. Exact match` loop of `get_speaker_improved`: return the speaker
of the first segment whose closed interval contains the midpoint. -/
def findExact (mid : ℚ) : List Segment → Option Str
  | [] => none
  | s :: rest => if s.start ≤ mid ∧ mid ≤ s.stop then some s.speaker else findExact mid rest

/-- The `# 2. Closest match` loop of `get_speaker_improved`: fold over the
segments carrying `closest_speaker` and `min_dist`; `none` models the initial
`float('inf')`, against which any distance compares as smaller. -/
def closestLoop (word_start word_end : ℚ) :
    List Segment → Str → Option ℚ → Str
  | [], best, _ => best
  | s :: rest, best, min_dist =>
    let dist := segDist word_start word_end s
    match min_dist with
    | none => closestLoop word_start word_end rest s.speaker (some dist)
    | some m =>
      if dist < m then closestLoop word_start word_end rest s.speaker (some dist)
      else closestLoop word_start word_end rest best (some m)

/-- Embedding of `get_speaker_improved(word_start, word_end, segments)` from
`transcript_gen_logic.py`. -/
def get_speaker_improved (word_start word_end : ℚ) (segments : List Segment) : Str :=
  let word_mid := (word_start + word_end) / 2
  match findExact word_mid segments with
  | some sp => sp
  | none => closestLoop word_start word_end segments "Unknown".toList none

/-- The loop-body distance of `get_speaker_for_word` in `video_transcriber.py`:
`dist = 0`, then `if word_end < seg.start` / `elif word_start > seg.end`
overwrite it; there is no `else` branch, so otherwise `dist` stays `0`. -/
def distForWord (word_start word_end : ℚ) (seg : Segment) : ℚ :=
  if word_end < seg.start then seg.start - word_end
  else if word_start > seg.stop then word_start - seg.stop
  else 0

/-- The exact-match loop of `get_speaker_for_word` in `video_transcriber.py`. -/
def findExactVT (mid : ℚ) : List Segment → Option Str
  | [] => none
  | s :: rest => if s.start ≤ mid ∧ mid ≤ s.stop then some s.speaker else findExactVT mid rest

/-- The closest-match loop of `get_speaker_for_word` in `video_transcriber.py`. -/
def closestLoopVT (word_start word_end : ℚ) :
    List Segment → Str → Option ℚ → Str
  | [], best, _ => best
  | s :: rest, best, min_dist =>
    let dist := distForWord word_start word_end s
    match min_dist with
    | none => closestLoopVT word_start word_end rest s.speaker (some dist)
    | some m =>
      if dist < m then closestLoopVT word_start word_end rest s.speaker (some dist)
      else closestLoopVT word_start word_end rest best (some m)

/-- Embedding of `get_speaker_for_word(word_start, word_end, segments)` from
`video_transcriber.py`. -/
def get_speaker_for_word (word_start word_end : ℚ) (segments : List Segment) : Str :=
  let word_mid := (word_start + word_end) / 2
  match findExactVT word_mid segments with
  | some sp => sp
  | none => closestLoopVT word_start word_end segments "Unknown".toList none

/-- An entry of `word_timestamps` as read by `generate_transcript`: the key
`word` is always accessed with `word_data['word']`, while the timing keys are
read with `word_data.get('start', word_data.get('start_offset', 0))` and the
same for `end`/`end_offset`, so those four keys may be absent. -/
structure WordData where
  word : Str
  start : Option ℚ
  stop : Option ℚ
  start_offset : Option ℚ
  stop_offset : Option ℚ
  deriving DecidableEq, Repr

/-- Reading of `word_data.get('start', word_data.get('start_offset', 0))`. -/
def wordStart (w : WordData) : ℚ := w.start.getD (w.start_offset.getD 0)

/-- Reading of `word_data.get('end', word_data.get('end_offset', 0))`. -/
def wordEnd (w : WordData) : ℚ := w.stop.getD (w.stop_offset.getD 0)

/-- An element of `word_speakers`:
`{"word": ..., "start": ..., "end": ..., "speaker": ...}`. -/
structure AWord where
  word : Str
  start : ℚ
  stop : ℚ
  speaker : Str
  deriving DecidableEq, Repr

/-- Step 1 (`# Step 1: Assign initial speakers`) of `generate_transcript`: build
`word_speakers` from the raw word records. -/
def assignSpeakers (segments : List Segment) (word_timestamps : List WordData) :
    List AWord :=
  word_timestamps.map (fun word_data =>
    { word := word_data.word
      start := wordStart word_data
      stop := wordEnd word_data
      speaker := get_speaker_improved (wordStart word_data) (wordEnd word_data) segments })

/-- The body of the `# Step 2: Smooth speakers` loop of `generate_transcript`
from the second word on: `prev` is the (already updated) previous element; if
`curr['start'] - prev['end'] < 0.25` the current word takes `prev`'s speaker. -/
def smoothFrom (prev : AWord) : List AWord → List AWord
  | [] => []
  | curr :: rest =>
    let curr' := if curr.start - prev.stop < 1/4 then { curr with speaker := prev.speaker } else curr
    curr' :: smoothFrom curr' rest

/-- Step 2 (`# Step 2: Smooth speakers`) of `generate_transcript`: the word at index 0
is left as is; each later word conforms to the updated previous word when the
inter-word gap is below 0.25 s. -/
def smooth : List AWord → List AWord
  | [] => []
  | w :: rest => w :: smoothFrom w rest

/-- Model of `" ".join(current_sentence)` with strings as `List Char`. -/
def spaceJoin (sentence : List Str) : Str := List.intercalate [' '] sentence

/-- Splitting a string on the single-space separator (inverse reading of
`" ".join`); on the empty string it returns `[[]]`, as Python's
`"".split(" ")` returns `['']`. -/
def spaceSplit : Str → List Str
  | [] => [[]]
  | c :: cs =>
    match spaceSplit cs with
    | [] => []
    | w :: ws => if c = ' ' then [] :: w :: ws else (c :: w) :: ws

/-- An element of `final_transcript`: `{"speaker": ..., "text": ...}`. -/
structure Utterance where
  speaker : Str
  text : Str
  deriving DecidableEq, Repr

/-- The `# Step 3: Build final transcript` loop of `generate_transcript` after
the first word has been seen: `cur` is `current_speaker` and `sentence` is the
(nonempty) `current_sentence`; a speaker change flushes the sentence, and the
trailing `if current_sentence:` flushes the last one. -/
def groupLoop (cur : Str) (sentence : List Str) : List AWord → List Utterance
  | [] => [{ speaker := cur, text := spaceJoin sentence }]
  | item :: rest =>
    if item.speaker = cur then groupLoop cur (sentence ++ [item.word]) rest
    else { speaker := cur, text := spaceJoin sentence } :: groupLoop item.speaker [item.word] rest

/-- Step 3 (`# Step 3: Build final transcript`) of `generate_transcript`:
`current_speaker` starts as `None`, which differs from every word's string
label, so the first word always opens a new sentence without flushing; an
empty word list produces an empty transcript. -/
def group : List AWord → List Utterance
  | [] => []
  | item :: rest => groupLoop item.speaker [item.word] rest

/-- Re-expressing the grouper's output as assigned words, one per original
word, each carrying the speaker of the utterance it lands in: mirroring
`group`, a word that matches `current_speaker` joins the current utterance
(whose speaker is `cur`), and a word that differs opens a new utterance whose
speaker is its own. -/
def reexpressLoop (cur : Str) : List AWord → List AWord
  | [] => []
  | item :: rest =>
    if item.speaker = cur then { item with speaker := cur } :: reexpressLoop cur rest
    else { item with speaker := item.speaker } :: reexpressLoop item.speaker rest

/-- Re-expression of `group`'s output over the original word list: the first
word always opens a new utterance carrying its own speaker. -/
def reexpress : List AWord → List AWord
  | [] => []
  | item :: rest => { item with speaker := item.speaker } :: reexpressLoop item.speaker rest

/-- The same traversal as `groupLoop`, but keeping the whole assigned words
of the current run instead of only their texts: it exposes the run structure
of the grouping loop, pairing each flushed run with the `current_speaker`
value it was flushed under. -/
def runsLoop (cur : Str) (run : List AWord) : List AWord → List (Str × List AWord)
  | [] => [(cur, run)]
  | item :: rest =>
    if item.speaker = cur then runsLoop cur (run ++ [item]) rest
    else (cur, run) :: runsLoop item.speaker [item] rest

/-- Concrete three-word example: gaps 0.1 s and 0.1 s, speakers A, B, C. -/
def exThree : List AWord :=
  [{ word := "w1".toList, start := 0, stop := 1, speaker := "A".toList },
   { word := "w2".toList, start := 11/10, stop := 2, speaker := "B".toList },
   { word := "w3".toList, start := 21/10, stop := 3, speaker := "C".toList }]

/-- Concrete segments for the nearest-neighbor scenario: `[{0,1,"A"},{3,4,"B"}]`. -/
def exSegs : List Segment :=
  [{ start := 0, stop := 1, speaker := "A".toList },
   { start := 3, stop := 4, speaker := "B".toList }]

/-- Concrete overlapping segments: the wide first segment contains the word
midpoint, the nearer second one is ignored. -/
def exOverlap : List Segment :=
  [{ start := 0, stop := 20, speaker := "A".toList },
   { start := 9, stop := 11, speaker := "B".toList }]

/-- A word record with all four timing keys absent. -/
def wdNoTiming : WordData :=
  { word := "hi".toList, start := none, stop := none,
    start_offset := none, stop_offset := none }

/-- A word record whose only start timing is the `start_offset` alias. -/
def wdAliasOnly : WordData :=
  { word := "hi".toList, start := none, stop := none,
    start_offset := some 5, stop_offset := none }

/-- An assigned word whose text contains a space character. -/
def wSpace : AWord :=
  { word := "a b".toList, start := 0, stop := 1, speaker := "A".toList }

section Lemmas

/-! ### Helper lemmas -/

theorem findExactVT_eq_findExact (mid : ℚ) :
    ∀ l : List Segment, findExactVT mid l = findExact mid l := by
  intro l
  induction l with
  | nil => rfl
  | cons s rest ih => simp [findExactVT, findExact, ih]

theorem distForWord_eq_segDist (word_start word_end : ℚ) (seg : Segment) :
    distForWord word_start word_end seg = segDist word_start word_end seg := rfl

theorem closestLoopVT_eq_closestLoop (word_start word_end : ℚ) :
    ∀ (l : List Segment) (best : Str) (md : Option ℚ),
      closestLoopVT word_start word_end l best md =
        closestLoop word_start word_end l best md := by
  intro l
  induction l with
  | nil => intro best md; rfl
  | cons s rest ih =>
    intro best md
    cases md with
    | none => simp [closestLoopVT, closestLoop, distForWord_eq_segDist, ih]
    | some m =>
      simp only [closestLoopVT, closestLoop, distForWord_eq_segDist]
      split <;> exact ih _ _

theorem findExact_mem (mid : ℚ) :
    ∀ (l : List Segment) (sp : Str), findExact mid l = some sp → ∃ s ∈ l, sp = s.speaker := by
  intro l
  induction l with
  | nil => intro sp h; simp [findExact] at h
  | cons s rest ih =>
    intro sp h
    by_cases hc : s.start ≤ mid ∧ mid ≤ s.stop
    · simp [findExact, hc] at h
      exact ⟨s, List.mem_cons_self s rest, h.symm⟩
    · simp [findExact, hc] at h
      obtain ⟨t, ht, hsp⟩ := ih sp h
      exact ⟨t, List.mem_cons_of_mem s ht, hsp⟩

theorem closestLoop_result (word_start word_end : ℚ) :
    ∀ (l : List Segment) (best : Str) (md : Option ℚ),
      closestLoop word_start word_end l best md = best ∨
        ∃ s ∈ l, closestLoop word_start word_end l best md = s.speaker := by
  intro l
  induction l with
  | nil => intro best md; exact Or.inl rfl
  | cons s rest ih =>
    intro best md
    have step : closestLoop word_start word_end (s :: rest) best md =
        closestLoop word_start word_end rest s.speaker (some (segDist word_start word_end s)) ∨
        closestLoop word_start word_end (s :: rest) best md =
        closestLoop word_start word_end rest best md := by
      cases md with
      | none => exact Or.inl rfl
      | some m =>
        simp only [closestLoop]
        split
        · exact Or.inl rfl
        · exact Or.inr rfl
    rcases step with h | h
    · rw [h]
      rcases ih s.speaker (some (segDist word_start word_end s)) with h2 | ⟨t, ht, h2⟩
      · exact Or.inr ⟨s, List.mem_cons_self s rest, h2⟩
      · exact Or.inr ⟨t, List.mem_cons_of_mem s ht, h2⟩
    · rw [h]
      rcases ih best md with h2 | ⟨t, ht, h2⟩
      · exact Or.inl h2
      · exact Or.inr ⟨t, List.mem_cons_of_mem s ht, h2⟩

theorem findExact_none (mid : ℚ) :
    ∀ l : List Segment, (∀ t ∈ l, ¬(t.start ≤ mid ∧ mid ≤ t.stop)) →
      findExact mid l = none := by
  intro l
  induction l with
  | nil => intro _; rfl
  | cons t rest ih =>
    intro h
    have ht := h t (List.mem_cons_self t rest)
    simp only [findExact, if_neg ht]
    exact ih (fun u hu => h u (List.mem_cons_of_mem t hu))

theorem findExact_append (mid : ℚ) (s : Segment) (post : List Segment)
    (hs : s.start ≤ mid ∧ mid ≤ s.stop) :
    ∀ pre : List Segment, (∀ t ∈ pre, ¬(t.start ≤ mid ∧ mid ≤ t.stop)) →
      findExact mid (pre ++ s :: post) = some s.speaker := by
  intro pre
  induction pre with
  | nil => intro _; simp [findExact, if_pos hs]
  | cons t rest ih =>
    intro h
    have ht := h t (List.mem_cons_self t rest)
    simp only [List.cons_append, findExact, if_neg ht]
    exact ih (fun u hu => h u (List.mem_cons_of_mem t hu))

theorem closestLoop_min (word_start word_end : ℚ) :
    ∀ (l : List Segment) (best : Str) (m : ℚ),
      ((∀ (j : Nat) (hj : j < l.length), m ≤ segDist word_start word_end l[j]) ∧
          closestLoop word_start word_end l best (some m) = best) ∨
        (∃ (i : Nat) (hi : i < l.length),
          closestLoop word_start word_end l best (some m) = l[i].speaker ∧
          segDist word_start word_end l[i] < m ∧
          (∀ (j : Nat) (hj : j < l.length), j < i →
              segDist word_start word_end l[i] < segDist word_start word_end l[j]) ∧
          (∀ (j : Nat) (hj : j < l.length),
              segDist word_start word_end l[i] ≤ segDist word_start word_end l[j])) := by
  intro l
  induction l with
  | nil =>
    intro best m
    exact Or.inl ⟨fun j hj => absurd hj (Nat.not_lt_zero j), rfl⟩
  | cons s rest ih =>
    intro best m
    by_cases hd : segDist word_start word_end s < m
    · have step : closestLoop word_start word_end (s :: rest) best (some m) =
          closestLoop word_start word_end rest s.speaker
            (some (segDist word_start word_end s)) := by
        simp only [closestLoop, if_pos hd]
      rcases ih s.speaker (segDist word_start word_end s) with
        ⟨hall, heq⟩ | ⟨i, hi, heq, hlt, hfirst, hmin⟩
      · refine Or.inr ⟨0, Nat.succ_pos _, ?_, ?_, ?_, ?_⟩
        · rw [step, heq]; simp
        · simpa using hd
        · intro j hj hj0; exact absurd hj0 (Nat.not_lt_zero j)
        · intro j hj
          cases j with
          | zero => simp
          | succ k =>
            simp only [List.getElem_cons_zero, List.getElem_cons_succ]
            exact hall k (by simpa using hj)
      · refine Or.inr ⟨i + 1, by simpa using Nat.succ_lt_succ hi, ?_, ?_, ?_, ?_⟩
        · rw [step, heq]; simp
        · simp only [List.getElem_cons_succ]
          exact lt_trans hlt hd
        · intro j hj hji
          cases j with
          | zero => simpa using hlt
          | succ k =>
            simp only [List.getElem_cons_succ]
            exact hfirst k (by simpa using hj) (by omega)
        · intro j hj
          cases j with
          | zero => simpa using le_of_lt hlt
          | succ k =>
            simp only [List.getElem_cons_succ]
            exact hmin k (by simpa using hj)
    · have step : closestLoop word_start word_end (s :: rest) best (some m) =
          closestLoop word_start word_end rest best (some m) := by
        simp only [closestLoop, if_neg hd]
      have hms : m ≤ segDist word_start word_end s := not_lt.mp hd
      rcases ih best m with ⟨hall, heq⟩ | ⟨i, hi, heq, hlt, hfirst, hmin⟩
      · refine Or.inl ⟨?_, by rw [step]; exact heq⟩
        intro j hj
        cases j with
        | zero => simpa using hms
        | succ k =>
          simp only [List.getElem_cons_succ]
          exact hall k (by simpa using hj)
      · refine Or.inr ⟨i + 1, by simpa using Nat.succ_lt_succ hi, ?_, ?_, ?_, ?_⟩
        · rw [step, heq]; simp
        · simpa using hlt
        · intro j hj hji
          cases j with
          | zero => simpa using lt_of_lt_of_le hlt hms
          | succ k =>
            simp only [List.getElem_cons_succ]
            exact hfirst k (by simpa using hj) (by omega)
        · intro j hj
          cases j with
          | zero => simpa using le_of_lt (lt_of_lt_of_le hlt hms)
          | succ k =>
            simp only [List.getElem_cons_succ]
            exact hmin k (by simpa using hj)

theorem smoothFrom_length (l : List AWord) : ∀ prev : AWord,
    (smoothFrom prev l).length = l.length := by
  induction l with
  | nil => intro prev; rfl
  | cons c rest ih => intro prev; simp only [smoothFrom, List.length_cons, ih]

theorem smoothFrom_getElem_word (l : List AWord) : ∀ (prev : AWord) (i : Nat),
    ((smoothFrom prev l)[i]?).map AWord.word = (l[i]?).map AWord.word := by
  induction l with
  | nil => intro prev i; rfl
  | cons c rest ih =>
    intro prev i
    cases i with
    | zero =>
      simp only [smoothFrom, List.getElem?_cons_zero, Option.map_some]
      split <;> rfl
    | succ n =>
      simp only [smoothFrom, List.getElem?_cons_succ]
      exact ih _ n

theorem smoothFrom_getElem_start (l : List AWord) : ∀ (prev : AWord) (i : Nat),
    ((smoothFrom prev l)[i]?).map AWord.start = (l[i]?).map AWord.start := by
  induction l with
  | nil => intro prev i; rfl
  | cons c rest ih =>
    intro prev i
    cases i with
    | zero =>
      simp only [smoothFrom, List.getElem?_cons_zero, Option.map_some]
      split <;> rfl
    | succ n =>
      simp only [smoothFrom, List.getElem?_cons_succ]
      exact ih _ n

theorem smoothFrom_getElem_stop (l : List AWord) : ∀ (prev : AWord) (i : Nat),
    ((smoothFrom prev l)[i]?).map AWord.stop = (l[i]?).map AWord.stop := by
  induction l with
  | nil => intro prev i; rfl
  | cons c rest ih =>
    intro prev i
    cases i with
    | zero =>
      simp only [smoothFrom, List.getElem?_cons_zero, Option.map_some]
      split <;> rfl
    | succ n =>
      simp only [smoothFrom, List.getElem?_cons_succ]
      exact ih _ n

theorem smoothFrom_head_speaker (l : List AWord) (prev : AWord) (b' : AWord)
    (h0 : (smoothFrom prev l)[0]? = some b') (hgap : b'.start - prev.stop < 1/4) :
    b'.speaker = prev.speaker := by
  cases l with
  | nil => simp [smoothFrom] at h0
  | cons c rest =>
    simp only [smoothFrom, List.getElem?_cons_zero, Option.some.injEq] at h0
    by_cases h : c.start - prev.stop < 1/4
    · rw [if_pos h] at h0
      rw [← h0]
    · rw [if_neg h] at h0
      rw [← h0] at hgap
      exact absurd hgap h

theorem smoothFrom_propagate (l : List AWord) : ∀ (prev : AWord) (i : Nat) (a' b' : AWord),
    (smoothFrom prev l)[i]? = some a' → (smoothFrom prev l)[i+1]? = some b' →
    b'.start - a'.stop < 1/4 → b'.speaker = a'.speaker := by
  induction l with
  | nil => intro prev i a' b' ha; simp [smoothFrom] at ha
  | cons c rest ih =>
    intro prev i a' b' ha hb hgap
    cases i with
    | zero =>
      simp only [smoothFrom, List.getElem?_cons_zero, List.getElem?_cons_succ,
        Option.some.injEq] at ha hb
      subst ha
      exact smoothFrom_head_speaker rest _ b' hb hgap
    | succ n =>
      simp only [smoothFrom, List.getElem?_cons_succ] at ha hb
      exact ih _ n a' b' ha hb hgap

theorem smoothFrom_idem (l : List AWord) : ∀ prev : AWord,
    smoothFrom prev (smoothFrom prev l) = smoothFrom prev l := by
  induction l with
  | nil => intro prev; rfl
  | cons c rest ih =>
    intro prev
    by_cases h : c.start - prev.stop < 1/4
    · simp only [smoothFrom, if_pos h]
      exact congrArg _ (ih _)
    · simp only [smoothFrom, if_neg h]
      exact congrArg _ (ih _)

theorem spaceSplit_ne_nil : ∀ s : Str, spaceSplit s ≠ [] := by
  intro s
  induction s with
  | nil => simp [spaceSplit]
  | cons c cs ih =>
    simp only [spaceSplit]
    cases h : spaceSplit cs with
    | nil => exact absurd h ih
    | cons w ws =>
      show (if c = ' ' then [] :: w :: ws else (c :: w) :: ws) ≠ []
      split <;> simp

theorem spaceSplit_no_space : ∀ w : Str, ' ' ∉ w → spaceSplit w = [w] := by
  intro w
  induction w with
  | nil => intro _; rfl
  | cons c cs ih =>
    intro h
    simp only [List.mem_cons, not_or] at h
    simp only [spaceSplit, ih h.2]
    rw [if_neg (Ne.symm h.1)]

theorem spaceSplit_append (t : Str) : ∀ w : Str, ' ' ∉ w →
    spaceSplit (w ++ ' ' :: t) = w :: spaceSplit t := by
  intro w
  induction w with
  | nil =>
    intro _
    simp only [List.nil_append, spaceSplit]
    cases h : spaceSplit t with
    | nil => exact absurd h (spaceSplit_ne_nil t)
    | cons a as => simp
  | cons c cs ih =>
    intro h
    simp only [List.mem_cons, not_or] at h
    simp only [List.cons_append, spaceSplit, List.append_eq, ih h.2]
    rw [if_neg (Ne.symm h.1)]

theorem spaceSplit_spaceJoin : ∀ l : List Str, l ≠ [] → (∀ w ∈ l, ' ' ∉ w) →
    spaceSplit (spaceJoin l) = l := by
  intro l
  induction l with
  | nil => intro h; exact absurd rfl h
  | cons a l2 ih =>
    intro _ hws
    cases l2 with
    | nil =>
      have hj : spaceJoin [a] = a := by simp [spaceJoin, List.intercalate]
      rw [hj, spaceSplit_no_space a (hws a (List.mem_cons_self a []))]
    | cons b l3 =>
      have hj : spaceJoin (a :: b :: l3) = a ++ ' ' :: spaceJoin (b :: l3) := by
        simp [spaceJoin, List.intercalate, List.intersperse]
      rw [hj, spaceSplit_append _ a (hws a (List.mem_cons_self a _)),
        ih (by simp) (fun w hw => hws w (List.mem_cons_of_mem a hw))]

theorem groupLoop_join (l : List AWord) : ∀ (cur : Str) (sentence : List Str),
    sentence ≠ [] → (∀ w ∈ sentence, ' ' ∉ w) → (∀ a ∈ l, ' ' ∉ a.word) →
    ((groupLoop cur sentence l).map (fun u => spaceSplit u.text)).flatten =
      sentence ++ l.map AWord.word := by
  induction l with
  | nil =>
    intro cur sentence hne hs _
    simp [groupLoop, spaceSplit_spaceJoin sentence hne hs]
  | cons item rest ih =>
    intro cur sentence hne hs hw
    have hwd : ' ' ∉ item.word := hw item (List.mem_cons_self item rest)
    have hw2 : ∀ a ∈ rest, ' ' ∉ a.word := fun a ha => hw a (List.mem_cons_of_mem item ha)
    by_cases hsp : item.speaker = cur
    · simp only [groupLoop, if_pos hsp]
      rw [ih cur (sentence ++ [item.word]) (by simp) ?_ hw2]
      · simp
      · intro w hw3
        rcases List.mem_append.mp hw3 with h | h
        · exact hs w h
        · simp only [List.mem_singleton] at h
          rw [h]; exact hwd
    · simp only [groupLoop, if_neg hsp, List.map_cons, List.flatten_cons]
      rw [spaceSplit_spaceJoin sentence hne hs,
        ih item.speaker [item.word] (by simp) ?_ hw2]
      · simp
      · intro w hw3
        simp only [List.mem_singleton] at hw3
        rw [hw3]; exact hwd

theorem runsLoop_flatten (l : List AWord) : ∀ (cur : Str) (run : List AWord),
    ((runsLoop cur run l).map Prod.snd).flatten = run ++ l := by
  induction l with
  | nil => intro cur run; simp [runsLoop]
  | cons item rest ih =>
    intro cur run
    by_cases h : item.speaker = cur
    · simp only [runsLoop, if_pos h]
      rw [ih]
      simp
    · simp only [runsLoop, if_neg h, List.map_cons, List.flatten_cons]
      rw [ih]
      simp

theorem runsLoop_group (l : List AWord) : ∀ (cur : Str) (run : List AWord),
    groupLoop cur (run.map AWord.word) l =
      (runsLoop cur run l).map
        (fun p => { speaker := p.fst, text := spaceJoin (p.snd.map AWord.word) }) := by
  induction l with
  | nil => intro cur run; simp [groupLoop, runsLoop]
  | cons item rest ih =>
    intro cur run
    by_cases h : item.speaker = cur
    · simp only [groupLoop, runsLoop, if_pos h]
      rw [show run.map AWord.word ++ [item.word] = (run ++ [item]).map AWord.word by simp]
      exact ih cur (run ++ [item])
    · simp only [groupLoop, runsLoop, if_neg h, List.map_cons]
      refine congrArg (List.cons _) ?_
      exact ih item.speaker [item]

theorem runsLoop_speakers (l : List AWord) : ∀ (cur : Str) (run : List AWord),
    run ≠ [] → (∀ a ∈ run, a.speaker = cur) →
    ∀ p ∈ runsLoop cur run l, p.snd ≠ [] ∧ ∀ a ∈ p.snd, a.speaker = p.fst := by
  induction l with
  | nil =>
    intro cur run hne hall p hp
    simp only [runsLoop, List.mem_singleton] at hp
    subst hp
    exact ⟨hne, hall⟩
  | cons item rest ih =>
    intro cur run hne hall p hp
    by_cases h : item.speaker = cur
    · simp only [runsLoop, if_pos h] at hp
      refine ih cur (run ++ [item]) (by simp) ?_ p hp
      intro a ha
      rcases List.mem_append.mp ha with h2 | h2
      · exact hall a h2
      · simp only [List.mem_singleton] at h2
        rw [h2]
        exact h
    · simp only [runsLoop, if_neg h, List.mem_cons] at hp
      rcases hp with rfl | hp
      · exact ⟨hne, hall⟩
      · refine ih item.speaker [item] (by simp) ?_ p hp
        intro a ha
        simp only [List.mem_singleton] at ha
        rw [ha]

theorem runsLoop_head (l : List AWord) : ∀ (cur : Str) (run : List AWord),
    ((runsLoop cur run l).head?).map Prod.fst = some cur := by
  induction l with
  | nil => intro cur run; rfl
  | cons item rest ih =>
    intro cur run
    by_cases h : item.speaker = cur
    · simp only [runsLoop, if_pos h]
      exact ih cur _
    · simp only [runsLoop, if_neg h, List.head?_cons]
      rfl

theorem runsLoop_chain (l : List AWord) : ∀ (cur : Str) (run : List AWord),
    List.Chain' (fun p q : Str × List AWord => p.fst ≠ q.fst) (runsLoop cur run l) := by
  induction l with
  | nil => intro cur run; simp [runsLoop]
  | cons item rest ih =>
    intro cur run
    by_cases h : item.speaker = cur
    · simp only [runsLoop, if_pos h]
      exact ih cur _
    · simp only [runsLoop, if_neg h]
      rw [List.chain'_cons']
      refine ⟨?_, ih item.speaker _⟩
      intro q hq
      have hh := runsLoop_head rest item.speaker [item]
      rw [hq] at hh
      simp only [Option.map_some', Option.some.injEq] at hh
      intro hcontra
      apply h
      rw [← hh]
      exact hcontra.symm

theorem reexpressLoop_eq (l : List AWord) : ∀ cur : Str, reexpressLoop cur l = l := by
  induction l with
  | nil => intro cur; rfl
  | cons item rest ih =>
    intro cur
    by_cases h : item.speaker = cur
    · simp only [reexpressLoop, if_pos h, ih]
      rw [← h]
    · simp only [reexpressLoop, if_neg h, ih]

theorem reexpress_eq (ws : List AWord) : reexpress ws = ws := by
  cases ws with
  | nil => rfl
  | cons item rest => simp only [reexpress, reexpressLoop_eq]

theorem groupLoop_head (l : List AWord) : ∀ (cur : Str) (sentence : List Str),
    ((groupLoop cur sentence l).head?).map Utterance.speaker = some cur := by
  induction l with
  | nil => intro cur s; rfl
  | cons item rest ih =>
    intro cur s
    by_cases h : item.speaker = cur
    · simp only [groupLoop, if_pos h]
      exact ih cur _
    · simp only [groupLoop, if_neg h, List.head?_cons]
      rfl

theorem groupLoop_chain (l : List AWord) : ∀ (cur : Str) (sentence : List Str),
    List.Chain' (fun u v : Utterance => u.speaker ≠ v.speaker) (groupLoop cur sentence l) := by
  induction l with
  | nil => intro cur s; simp [groupLoop]
  | cons item rest ih =>
    intro cur s
    by_cases h : item.speaker = cur
    · simp only [groupLoop, if_pos h]
      exact ih cur _
    · simp only [groupLoop, if_neg h]
      rw [List.chain'_cons']
      refine ⟨?_, ih item.speaker _⟩
      intro u hu
      have hh := groupLoop_head rest item.speaker [item.word]
      rw [hu] at hh
      simp only [Option.map_some', Option.some.injEq] at hh
      intro hcontra
      apply h
      rw [← hh]
      exact hcontra.symm

end Lemmas

section ClaimTheorems

/-! ### Claim theorems -/

/-- C7: the segment filter keeps a segment if and only if
`end - start >= threshold`, its output is a sublist (subsequence) of its
input in the same relative order with no segment mutated, and empty input
yields empty output; the pipeline calls it with the default threshold 0.3. -/
theorem filter_short_segments_spec (segments : List Segment) (threshold : ℚ) :
    (∀ s ∈ segments,
        s ∈ filter_short_segments segments threshold ↔ threshold ≤ s.stop - s.start) ∧
    (filter_short_segments segments threshold).Sublist segments ∧
    (∀ s ∈ filter_short_segments segments threshold, threshold ≤ s.stop - s.start) ∧
    filter_short_segments [] threshold = [] := by
  refine ⟨?_, ?_, ?_, rfl⟩
  · intro s hs
    constructor
    · intro hmem
      have := List.of_mem_filter hmem
      simpa using this
    · intro hdur
      exact List.mem_filter.mpr ⟨hs, by simpa using hdur⟩
  · exact List.filter_sublist segments
  · intro s hs
    have := List.of_mem_filter hs
    simpa using this

unseal Rat.sub Rat.add Rat.mul Rat.inv Rat.ofScientific in
/-- C7 witness: at threshold 0.3, the concrete list keeps exactly the long
segment. -/
theorem filter_short_segments_spec_witness :
    (({ start := 0, stop := 1, speaker := "A".toList } : Segment) ∈
        filter_short_segments exSegs (3/10) ↔
      (3/10 : ℚ) ≤ (1 : ℚ) - 0) ∧
    filter_short_segments
      [({ start := 0, stop := 1/10, speaker := "A".toList } : Segment)] (3/10) = [] :=
  ⟨(filter_short_segments_spec exSegs (3/10)).1 _ (by decide), by decide⟩

/-- C9: the two independently written word aligners agree on every input:
`get_speaker_for_word` of `video_transcriber.py` and `get_speaker_improved`
of `transcript_gen_logic.py` are extensionally equal. -/
theorem get_speaker_for_word_eq_improved (word_start word_end : ℚ) (segments : List Segment) :
    get_speaker_for_word word_start word_end segments =
      get_speaker_improved word_start word_end segments := by
  simp only [get_speaker_for_word, get_speaker_improved, findExactVT_eq_findExact,
    closestLoopVT_eq_closestLoop]

/-- C2: the aligner returns the sentinel "Unknown" exactly on an empty
segment list: on the empty list it returns "Unknown", and on a non-empty
list it returns the speaker of some segment of the list. -/
theorem unknown_iff_no_segments (word_start word_end : ℚ) (segments : List Segment) :
    (segments = [] →
        get_speaker_improved word_start word_end segments = "Unknown".toList) ∧
    (segments ≠ [] →
        ∃ s ∈ segments, get_speaker_improved word_start word_end segments = s.speaker) := by
  constructor
  · intro h; subst h; rfl
  · intro hne
    obtain ⟨s, rest, rfl⟩ := List.exists_cons_of_ne_nil hne
    have hg : get_speaker_improved word_start word_end (s :: rest) =
        (match findExact ((word_start + word_end) / 2) (s :: rest) with
         | some sp => sp
         | none => closestLoop word_start word_end (s :: rest) "Unknown".toList none) := rfl
    rw [hg]
    cases hfe : findExact ((word_start + word_end) / 2) (s :: rest) with
    | some sp =>
      obtain ⟨t, ht, hsp⟩ := findExact_mem _ _ _ hfe
      exact ⟨t, ht, hsp⟩
    | none =>
      rcases closestLoop_result word_start word_end rest s.speaker
          (some (segDist word_start word_end s)) with h | ⟨t, ht, h⟩
      · exact ⟨s, List.mem_cons_self s rest, h⟩
      · exact ⟨t, List.mem_cons_of_mem s ht, h⟩

/-- C2 witness: on the empty list the aligner returns "Unknown"; on the
concrete two-segment list it returns some segment's speaker. -/
theorem unknown_iff_no_segments_witness :
    get_speaker_improved 2 (21/10) [] = "Unknown".toList ∧
    ∃ s ∈ exSegs, get_speaker_improved 2 (21/10) exSegs = s.speaker :=
  ⟨(unknown_iff_no_segments 2 (21/10) []).1 rfl,
   (unknown_iff_no_segments 2 (21/10) exSegs).2 (by decide)⟩

/-- C3: exact-match priority with first-match-wins: if some segment contains
the word midpoint in its closed interval, the aligner returns the speaker of
the first such segment in sequence order, whatever the distances of the other
segments are. -/
theorem exact_match_first_wins (word_start word_end : ℚ) (pre post : List Segment) (s : Segment)
    (hpre : ∀ t ∈ pre,
        ¬(t.start ≤ (word_start + word_end) / 2 ∧ (word_start + word_end) / 2 ≤ t.stop))
    (hs : s.start ≤ (word_start + word_end) / 2 ∧ (word_start + word_end) / 2 ≤ s.stop) :
    get_speaker_improved word_start word_end (pre ++ s :: post) = s.speaker := by
  have hg : get_speaker_improved word_start word_end (pre ++ s :: post) =
      (match findExact ((word_start + word_end) / 2) (pre ++ s :: post) with
       | some sp => sp
       | none =>
         closestLoop word_start word_end (pre ++ s :: post) "Unknown".toList none) := rfl
  rw [hg, findExact_append _ _ _ hs _ hpre]

unseal Rat.sub Rat.add Rat.mul Rat.inv Rat.ofScientific in
/-- C3 witness: the word interval [9.5, 10.5] has midpoint 10, contained in
the wide segment [0, 20] of speaker A; the nearer segment [9, 11] of speaker
B is ignored because A's segment comes first. -/
theorem exact_match_first_wins_witness :
    get_speaker_improved (19/2) (21/2) exOverlap = "A".toList :=
  exact_match_first_wins (19/2) (21/2) []
    [{ start := 9, stop := 11, speaker := "B".toList }]
    { start := 0, stop := 20, speaker := "A".toList }
    (by simp) (by decide)

/-- C4: when no segment contains the word midpoint and the segment list is
non-empty, the aligner returns the speaker of the segment minimizing the
directional gap distance `segDist`, and among the minimizers the
earliest-encountered one: every earlier segment has strictly larger
distance. -/
theorem nearest_neighbor_fallback (word_start word_end : ℚ) (segments : List Segment)
    (hne : segments ≠ [])
    (hex : ∀ t ∈ segments,
        ¬(t.start ≤ (word_start + word_end) / 2 ∧ (word_start + word_end) / 2 ≤ t.stop)) :
    ∃ (i : Nat) (hi : i < segments.length),
      get_speaker_improved word_start word_end segments = segments[i].speaker ∧
      (∀ (j : Nat) (hj : j < segments.length),
          segDist word_start word_end segments[i] ≤ segDist word_start word_end segments[j]) ∧
      (∀ (j : Nat) (hj : j < segments.length), j < i →
          segDist word_start word_end segments[i] < segDist word_start word_end segments[j]) := by
  obtain ⟨s, rest, rfl⟩ := List.exists_cons_of_ne_nil hne
  have hg : get_speaker_improved word_start word_end (s :: rest) =
      (match findExact ((word_start + word_end) / 2) (s :: rest) with
       | some sp => sp
       | none => closestLoop word_start word_end (s :: rest) "Unknown".toList none) := rfl
  rw [hg, findExact_none _ _ hex]
  have step : closestLoop word_start word_end (s :: rest) "Unknown".toList none =
      closestLoop word_start word_end rest s.speaker
        (some (segDist word_start word_end s)) := rfl
  rcases closestLoop_min word_start word_end rest s.speaker (segDist word_start word_end s) with
    ⟨hall, heq⟩ | ⟨i, hi, heq, hlt, hfirst, hmin⟩
  · refine ⟨0, Nat.succ_pos _, ?_, ?_, ?_⟩
    · rw [step, heq]; simp
    · intro j hj
      cases j with
      | zero => simp
      | succ k =>
        simp only [List.getElem_cons_zero, List.getElem_cons_succ]
        exact hall k (by simpa using hj)
    · intro j hj hj0
      exact absurd hj0 (Nat.not_lt_zero j)
  · refine ⟨i + 1, by simpa using Nat.succ_lt_succ hi, ?_, ?_, ?_⟩
    · rw [step, heq]; simp
    · intro j hj
      cases j with
      | zero => simpa using le_of_lt hlt
      | succ k =>
        simp only [List.getElem_cons_succ]
        exact hmin k (by simpa using hj)
    · intro j hj hji
      cases j with
      | zero => simpa using hlt
      | succ k =>
        simp only [List.getElem_cons_succ]
        exact hfirst k (by simpa using hj) (by omega)

unseal Rat.sub Rat.add Rat.mul Rat.inv Rat.ofScientific in
/-- C4 witness: word interval [2.0, 2.1] against segments
`[{0,1,"A"},{3,4,"B"}]`: the midpoint 2.05 is in no segment, the distances
are 1.0 and 0.9, and the aligner returns "B". -/
theorem nearest_neighbor_fallback_witness :
    get_speaker_improved 2 (21/10) exSegs = "B".toList ∧
    (∃ (i : Nat) (hi : i < exSegs.length),
      get_speaker_improved 2 (21/10) exSegs = exSegs[i].speaker ∧
      (∀ (j : Nat) (hj : j < exSegs.length),
          segDist 2 (21/10) exSegs[i] ≤ segDist 2 (21/10) exSegs[j]) ∧
      (∀ (j : Nat) (hj : j < exSegs.length), j < i →
          segDist 2 (21/10) exSegs[i] < segDist 2 (21/10) exSegs[j])) :=
  ⟨by decide, nearest_neighbor_fallback 2 (21/10) exSegs (by decide) (by decide)⟩

/-- C1: smoothing is a single forward sweep with propagation: lengths and all
words, starts and stops are unchanged, the word at index 0 is never modified
(the head is preserved whole), and whenever the gap between consecutive input
words is below 0.25 the later word's smoothed speaker equals the
already-updated smoothed speaker of the earlier word. -/
theorem smoothing_forward_sweep (ws : List AWord) :
    (smooth ws).length = ws.length ∧
    (smooth ws).head? = ws.head? ∧
    (∀ i : Nat,
        ((smooth ws)[i]?).map AWord.word = (ws[i]?).map AWord.word ∧
        ((smooth ws)[i]?).map AWord.start = (ws[i]?).map AWord.start ∧
        ((smooth ws)[i]?).map AWord.stop = (ws[i]?).map AWord.stop) ∧
    (∀ (i : Nat) (a b a' b' : AWord), ws[i]? = some a → ws[i+1]? = some b →
        (smooth ws)[i]? = some a' → (smooth ws)[i+1]? = some b' →
        b.start - a.stop < 1/4 → b'.speaker = a'.speaker) := by
  cases ws with
  | nil =>
    refine ⟨rfl, rfl, fun i => ⟨rfl, rfl, rfl⟩, fun i a b a' b' ha => ?_⟩
    simp at ha
  | cons w rest =>
    refine ⟨?_, rfl, ?_, ?_⟩
    · simp only [smooth, List.length_cons, smoothFrom_length]
    · intro i
      cases i with
      | zero => refine ⟨?_, ?_, ?_⟩ <;> simp [smooth]
      | succ n =>
        simp only [smooth, List.getElem?_cons_succ]
        exact ⟨smoothFrom_getElem_word rest w n, smoothFrom_getElem_start rest w n,
          smoothFrom_getElem_stop rest w n⟩
    · intro i a b a' b' ha hb ha' hb' hgap
      cases i with
      | zero =>
        simp only [smooth, List.getElem?_cons_zero, List.getElem?_cons_succ,
          Option.some.injEq] at ha ha' hb hb'
        subst ha; subst ha'
        have hstart : some b'.start = some b.start := by
          have h2 := smoothFrom_getElem_start rest w 0
          rw [hb, hb'] at h2
          exact h2
        rw [Option.some.injEq] at hstart
        have hgap' : b'.start - w.stop < 1/4 := by
          rw [hstart]
          exact hgap
        exact smoothFrom_head_speaker rest w b' hb' hgap'
      | succ n =>
        simp only [smooth, List.getElem?_cons_succ] at ha ha' hb hb'
        have hstart : some b'.start = some b.start := by
          have := smoothFrom_getElem_start rest w (n+1)
          rw [hb, hb'] at this
          exact this
        have hstop : some a'.stop = some a.stop := by
          have := smoothFrom_getElem_stop rest w n
          rw [ha, ha'] at this
          exact this
        rw [Option.some.injEq] at hstart hstop
        have hgap' : b'.start - a'.stop < 1/4 := by
          rw [hstart, hstop]
          exact hgap
        exact smoothFrom_propagate rest w n a' b' ha' hb' hgap'

unseal Rat.sub Rat.add Rat.mul Rat.inv Rat.ofScientific in
/-- C1 witness: on the three-word example with gaps 0.1 s and original
speakers A, B, C, smoothing makes all three words carry speaker A; the
propagation conjunct applies at index 0 with every hypothesis discharged by
evaluation. -/
theorem smoothing_forward_sweep_witness :
    AWord.speaker { word := "w2".toList, start := 11/10, stop := 2, speaker := "A".toList } =
      AWord.speaker { word := "w1".toList, start := 0, stop := 1, speaker := "A".toList } ∧
    (smooth exThree).map AWord.speaker = ["A".toList, "A".toList, "A".toList] :=
  ⟨(smoothing_forward_sweep exThree).2.2.2 0
      { word := "w1".toList, start := 0, stop := 1, speaker := "A".toList }
      { word := "w2".toList, start := 11/10, stop := 2, speaker := "B".toList }
      { word := "w1".toList, start := 0, stop := 1, speaker := "A".toList }
      { word := "w2".toList, start := 11/10, stop := 2, speaker := "A".toList }
      (by decide) (by decide) (by decide) (by decide) (by decide),
   by decide⟩

/-- C10: applying the smoothing pass twice yields the same result as applying
it once. -/
theorem smoothing_idempotent (ws : List AWord) : smooth (smooth ws) = smooth ws := by
  cases ws with
  | nil => rfl
  | cons w rest => simp only [smooth, smoothFrom_idem]

unseal Rat.sub Rat.add Rat.mul Rat.inv Rat.ofScientific in
/-- C5 counterexample: a word record with none of 'start'/'end'/
'start_offset'/'end_offset' does not produce an error; the pipeline silently
substitutes 0 for both timings and continues, contradicting the claim that a
fatal malformed-input error is surfaced. -/
theorem missing_timing_not_fatal :
    assignSpeakers [] [wdNoTiming] =
      [{ word := "hi".toList, start := 0, stop := 0, speaker := "Unknown".toList }] := by
  decide

/-- C5 (amended): `generate_transcript` reads the timings with
`word_data.get('start', word_data.get('start_offset', 0))` (and likewise for
`end`): a present 'start'/'end' wins, otherwise the 'start_offset'/
'end_offset' alias is used, and when both are absent the value 0 is silently
substituted; no error is raised. -/
theorem timing_alias_fallback (w : WordData) :
    (w.start = none → w.start_offset = none → wordStart w = 0) ∧
    (w.stop = none → w.stop_offset = none → wordEnd w = 0) ∧
    (∀ q : ℚ, w.start = none → w.start_offset = some q → wordStart w = q) ∧
    (∀ q : ℚ, w.stop = none → w.stop_offset = some q → wordEnd w = q) ∧
    (∀ q : ℚ, w.start = some q → wordStart w = q) ∧
    (∀ q : ℚ, w.stop = some q → wordEnd w = q) := by
  refine ⟨?_, ?_, ?_, ?_, ?_, ?_⟩ <;> intros <;> simp [wordStart, wordEnd, *]

/-- C5 witness: the fallback chain evaluated on concrete records: both keys
absent gives 0, and the offset alias is honored when 'start' is absent. -/
theorem timing_alias_fallback_witness :
    wordStart wdNoTiming = 0 ∧ wordStart wdAliasOnly = 5 :=
  ⟨(timing_alias_fallback wdNoTiming).1 rfl rfl,
   (timing_alias_fallback wdAliasOnly).2.2.1 5 rfl rfl⟩

/-- C6 counterexample: for a single word whose text contains a space
("a b"), splitting the utterance text on single spaces yields ["a", "b"],
not the original one-element word sequence, so losslessness as stated fails
on that input. -/
theorem grouping_lossless_counterexample :
    ¬(((group [wSpace]).map (fun u => spaceSplit u.text)).flatten =
        [wSpace].map AWord.word) := by
  decide

/-- C6 (amended): splitting each output utterance's text on single spaces and
concatenating across utterances in output order yields exactly the original
sequence of word texts in original order, for every assigned-word sequence
whose word texts contain no space character (the only restriction the
counterexample forces); and, with no restriction, each utterance's text is
the space-join of a maximal run of consecutive words sharing one speaker
label: the input splits, in order, into nonempty runs whose words all carry
the run's speaker, each utterance is that speaker with the space-join of its
run's word texts, and adjacent runs carry distinct speakers. -/
theorem grouping_lossless (ws : List AWord) :
    ((∀ a ∈ ws, ' ' ∉ a.word) →
      ((group ws).map (fun u => spaceSplit u.text)).flatten = ws.map AWord.word) ∧
    (∃ rs : List (Str × List AWord),
      (rs.map Prod.snd).flatten = ws ∧
      (∀ p ∈ rs, p.snd ≠ [] ∧ ∀ a ∈ p.snd, a.speaker = p.fst) ∧
      group ws = rs.map
        (fun p => { speaker := p.fst, text := spaceJoin (p.snd.map AWord.word) }) ∧
      List.Chain' (fun p q : Str × List AWord => p.fst ≠ q.fst) rs) := by
  constructor
  · intro h
    cases ws with
    | nil => rfl
    | cons w rest =>
      simp only [group]
      rw [groupLoop_join rest w.speaker [w.word] (by simp) ?_
        (fun a ha => h a (List.mem_cons_of_mem w ha))]
      · simp
      · intro x hx
        simp only [List.mem_singleton] at hx
        rw [hx]
        exact h w (List.mem_cons_self w rest)
  · cases ws with
    | nil => exact ⟨[], rfl, by simp, rfl, by simp⟩
    | cons item rest =>
      refine ⟨runsLoop item.speaker [item] rest, ?_, ?_, ?_, ?_⟩
      · rw [runsLoop_flatten]
        rfl
      · refine runsLoop_speakers rest item.speaker [item] (by simp) ?_
        intro a ha
        simp only [List.mem_singleton] at ha
        rw [ha]
      · simp only [group]
        exact runsLoop_group rest item.speaker [item]
      · exact runsLoop_chain rest item.speaker [item]

/-- C6 witness: on the three-word example (space-free words) grouping is
lossless. -/
theorem grouping_lossless_witness :
    ((group exThree).map (fun u => spaceSplit u.text)).flatten =
      exThree.map AWord.word :=
  (grouping_lossless exThree).1 (by decide)

/-- C8: grouping is idempotent: re-expressing the grouper's output as an
assigned-word sequence (one word per original word, each carrying its
utterance's speaker) and grouping again yields the same utterance sequence;
equivalently, consecutive utterances in the output always carry distinct
speaker labels. -/
theorem grouping_idempotent (ws : List AWord) :
    group (reexpress ws) = group ws ∧
    List.Chain' (fun u v : Utterance => u.speaker ≠ v.speaker) (group ws) := by
  refine ⟨by rw [reexpress_eq], ?_⟩
  cases ws with
  | nil => simp [group]
  | cons item rest => exact groupLoop_chain rest item.speaker [item.word]

end ClaimTheorems
